import Mathlib

/-!
Shallow embedding of the species common-name enrichment pipeline
(`main.py`, `en_csv_to_jsonl.py`, `jp_csv_to_jsonl.py`).

Strings are modelled as `List Char`.  Python `str.strip()` / regex `\s`
are modelled by the Unicode whitespace predicate `pyIsSpace`; Python
`.lower()` and `re.IGNORECASE` are modelled by ASCII case folding
(`lowerChar`), which covers every pattern the code matches.
-/

namespace CommonName

/-- The two target languages of the pipeline (`language` parameter). -/
inductive Lang
  | en
  | ja
deriving DecidableEq, Repr

/-- Unicode whitespace, as recognised by Python `str.strip()` and regex `\s`. -/
def pyIsSpace (c : Char) : Bool :=
  (9 ≤ c.toNat && c.toNat ≤ 13) || c.toNat = 32 ||
  (28 ≤ c.toNat && c.toNat ≤ 31) || c.toNat = 0x85 || c.toNat = 0xA0 ||
  c.toNat = 0x1680 || (0x2000 ≤ c.toNat && c.toNat ≤ 0x200A) ||
  c.toNat = 0x2028 || c.toNat = 0x2029 || c.toNat = 0x202F ||
  c.toNat = 0x205F || c.toNat = 0x3000

/-- Drop trailing characters satisfying `p` (right half of Python `strip`). -/
def dropTrailing (p : Char → Bool) (cs : List Char) : List Char :=
  (cs.reverse.dropWhile p).reverse

/-- Remove characters satisfying `p` from both ends. -/
def stripWhile (p : Char → Bool) (cs : List Char) : List Char :=
  dropTrailing p (cs.dropWhile p)

/-- Python `str.strip()` with no argument. -/
def pyStrip (cs : List Char) : List Char :=
  stripWhile pyIsSpace cs

/-- Python `str.strip(set)`: remove the given characters from both ends. -/
def pyStripChars (set : List Char) (cs : List Char) : List Char :=
  stripWhile (fun c => set.contains c) cs

/-- ASCII lower-casing of one character (model of Python `.lower()` /
`re.IGNORECASE` on the ASCII patterns the code uses). -/
def lowerChar (c : Char) : Char :=
  if 'A' ≤ c && c ≤ 'Z' then Char.ofNat (c.toNat + 32) else c

/-- Character comparison, case-insensitive when `ci` is true. -/
def charEqCI (ci : Bool) (a b : Char) : Bool :=
  if ci then lowerChar a == lowerChar b else a == b

/-- Match `pat` at the head of the text; return the rest on success. -/
def matchHead (ci : Bool) : List Char → List Char → Option (List Char)
  | [], cs => some cs
  | _ :: _, [] => none
  | p :: ps, c :: cs => if charEqCI ci p c then matchHead ci ps cs else none

/-- Model of `re.sub(r'^<pat>\s*', '', s)` (anchored, so at most one
replacement): strip the literal pattern plus following whitespace. -/
def subAnchored (ci : Bool) (pat : List Char) (cs : List Char) : List Char :=
  match matchHead ci pat cs with
  | some rest => rest.dropWhile pyIsSpace
  | none => cs

/-- Model of `re.sub(r'^<label>[:：]\s*', '', s)`: the label followed by an
ASCII or full-width colon, then whitespace. -/
def subLabelColon (label : List Char) (cs : List Char) : List Char :=
  match matchHead false (label ++ [':']) cs with
  | some rest => rest.dropWhile pyIsSpace
  | none =>
    match matchHead false (label ++ ['：']) cs with
    | some rest => rest.dropWhile pyIsSpace
    | none => cs

/-- Model of `if '\n' in s: s = s.split('\n')[0].strip()`. -/
def firstLineStep (cs : List Char) : List Char :=
  if '\n' ∈ cs then pyStrip (cs.takeWhile (fun c => c ≠ '\n')) else cs

/-- Quote/bracket characters stripped in the Japanese branch:
`strip('「」『』""\'"')`. -/
def jaQuotes : List Char := ['「', '」', '『', '』', '"', '\'']

/-- Quote characters stripped in the English branch: `strip('"\'')`. -/
def enQuotes : List Char := ['"', '\'']

/-- The two anchored prefix substitutions of the given language, applied in
source order (`呼称`/`日本語名` for Japanese; `Common Name:`/`Name:`
case-insensitively for English). -/
def prefixSubs (language : Lang) (cs : List Char) : List Char :=
  match language with
  | .ja => subLabelColon "日本語名".data (subLabelColon "呼称".data cs)
  | .en => subAnchored true "Name:".data (subAnchored true "Common Name:".data cs)

/-- The quote-strip step of the given language. -/
def quoteStrip (language : Lang) (cs : List Char) : List Char :=
  match language with
  | .ja => pyStripChars jaQuotes cs
  | .en => pyStripChars enQuotes cs

/-- Model of `clean_common_name` from `main.py`: strip; language-specific prefix
removal; keep text before the first line break (re-stripped); strip
quotes; final strip. -/
def clean_common_name (cs : List Char) (language : Lang) : List Char :=
  pyStrip (quoteStrip language (firstLineStep (prefixSubs language (pyStrip cs))))

example : clean_common_name "Common Name: Lion".data .en = "Lion".data := by decide
example : clean_common_name "  \"Wolf\"\nextra".data .en = "Wolf".data := by decide
example : clean_common_name "呼称：　ライオン".data .ja = "ライオン".data := by decide
example : clean_common_name "「オオカミ」".data .ja = "オオカミ".data := by decide
example : clean_common_name "name:  Puma".data .en = "Puma".data := by decide

/-! ### Completion client: `get_common_name` -/

/-- One attempt against the completion service, as observed by
`get_common_name`: either the request returns (with the structured field
parsed, or absent — `response.choices[0].message.parsed` falsy), or it
raises an exception carrying a message. -/
inductive ServiceOutcome
  | success (parsed : Option (List Char))
  | failure (msg : List Char)
deriving DecidableEq, Repr

/-- Does `needle` occur at the head of the text? (Python `startswith`.) -/
def startsWithSeq : List Char → List Char → Bool
  | [], _ => true
  | _ :: _, [] => false
  | n :: ns, c :: cs => n == c && startsWithSeq ns cs

/-- Does `needle` occur anywhere in the text? (Python `in` on strings.) -/
def containsSeq (needle : List Char) : List Char → Bool
  | [] => needle.isEmpty
  | c :: cs => startsWithSeq needle (c :: cs) || containsSeq needle cs

/-- The error classification of `get_common_name`:
`"429" in error_message or "rate_limit" in error_message.lower()`. -/
def isRateLimitMsg (msg : List Char) : Bool :=
  containsSeq "429".data msg || containsSeq "rate_limit".data (msg.map lowerChar)

/-- The sentinel failure label returned on any irrecoverable failure. -/
def errLabel : List Char := "エラー".data

/-- Observable result of one `get_common_name` call: the returned label,
the number of service attempts actually made, and the backoff sleeps
performed (in seconds, in order). -/
structure CallResult where
  result : List Char
  attemptsMade : Nat
  sleeps : List Nat
deriving DecidableEq, Repr

/-- The retry loop of `get_common_name`, one `ServiceOutcome` consumed per
attempt.  `attempt` is the 0-based loop index.  Mirrors: on success,
extract the field (sentinel if `parsed` is absent) and return it cleaned;
on a rate-limit error, sleep `10 * (attempt + 1)` and retry unless this
was the final attempt; on any other error, return the sentinel at once. -/
def getCommonNameGo (language : Lang) (max_retries : Nat) :
    Nat → List ServiceOutcome → CallResult
  | attempt, [] => ⟨errLabel, attempt, []⟩
  | attempt, .success parsed :: _ =>
    if attempt < max_retries then
      ⟨clean_common_name (parsed.getD errLabel) language, attempt + 1, []⟩
    else ⟨errLabel, attempt, []⟩
  | attempt, .failure msg :: rest =>
    if attempt < max_retries then
      if isRateLimitMsg msg then
        if attempt = max_retries - 1 then
          ⟨errLabel, attempt + 1, [10 * (attempt + 1)]⟩
        else
          let r := getCommonNameGo language max_retries (attempt + 1) rest
          ⟨r.result, r.attemptsMade, 10 * (attempt + 1) :: r.sleeps⟩
      else
        ⟨errLabel, attempt + 1, []⟩
    else ⟨errLabel, attempt, []⟩

/-- Model of `get_common_name` from `main.py`, driven by the oracle `outcomes`
(the service's behaviour on each successive attempt). -/
def get_common_name (outcomes : List ServiceOutcome) (language : Lang)
    (max_retries : Nat) : CallResult :=
  getCommonNameGo language max_retries 0 outcomes

example :
    get_common_name [.success (some "Common Name: Lion".data)] .en 10 =
      ⟨"Lion".data, 1, []⟩ := by decide
example :
    get_common_name [.failure "HTTP 429".data, .success (some "Wolf".data)] .en 10 =
      ⟨"Wolf".data, 2, [10]⟩ := by decide
example :
    get_common_name (List.replicate 3 (.failure "Rate_Limit hit".data)) .ja 3 =
      ⟨errLabel, 3, [10, 20, 30]⟩ := by decide
example :
    get_common_name [.failure "boom".data, .success (some "x".data)] .en 10 =
      ⟨errLabel, 1, []⟩ := by decide
example : get_common_name [.success none] .ja 10 = ⟨errLabel, 1, []⟩ := by decide

/-! ### Item enricher and batch scheduler -/

/-- One output row of the CSV (`fieldnames` in `process_and_save_batch`). -/
structure OutputRow where
  number : Nat
  scientific_name : List Char
  english_common_name : List Char
  japanese_common_name : List Char
deriving DecidableEq, Repr

/-- A service oracle: the outcome sequence the service produces for each
(species, language) call of the run.  The prompt templates only shape the
request text, which the oracle absorbs. -/
def Oracle : Type := List Char → Lang → List ServiceOutcome

/-- Model of `process_species` from `main.py`: fetch both labels for one species
(the two fetches run under `asyncio.gather`, whose result order is the
argument order, so relative completion order cannot affect the row) and
assemble the row. -/
def process_species (oracle : Oracle) (max_retries : Nat)
    (line_number : Nat) (species : List Char) : OutputRow :=
  { number := line_number
    scientific_name := species
    english_common_name := (get_common_name (oracle species .en) .en max_retries).result
    japanese_common_name := (get_common_name (oracle species .ja) .ja max_retries).result }

/-- Consecutive chunks of size `bs` (fuel-driven; with `0 < bs` and fuel
`l.length` this is exactly `range(0, len(tasks), batch_size)` slicing). -/
def chunksGo (bs : Nat) : Nat → List OutputRow → List (List OutputRow)
  | 0, _ => []
  | _ + 1, [] => []
  | fuel + 1, x :: t => (x :: t).take bs :: chunksGo bs fuel ((x :: t).drop bs)

/-- The batches of `process_and_save_batch`: `tasks[i:i+batch_size]` for
`i in range(0, len(tasks), batch_size)`. -/
def chunks (bs : Nat) (l : List OutputRow) : List (List OutputRow) :=
  chunksGo bs l.length l

/-- The sort key of `batch_results.sort(key=lambda x: x['number'])`. -/
def byNumber (a b : OutputRow) : Prop := a.number ≤ b.number

instance : DecidableRel byNumber := fun a b => Nat.decLe a.number b.number

instance : IsTotal OutputRow byNumber := ⟨fun a b => Nat.le_total a.number b.number⟩

instance : IsTrans OutputRow byNumber := ⟨fun _ _ _ hab hbc => Nat.le_trans hab hbc⟩

/-- The in-batch re-sort by line number.  Row numbers within a batch are
distinct, so any correct sort models Python's stable `list.sort`. -/
def sortByNumber (l : List OutputRow) : List OutputRow :=
  List.insertionSort byNumber l

/-- Observable events of one `process_and_save_batch` invocation. -/
inductive Event
  | itemCompleted (number : Nat)
  | rowWritten (row : OutputRow)
  | flushed
  | sleptBetweenBatches
deriving DecidableEq, Repr

/-- The events of one batch iteration: every item of the batch completes
(in arbitrary arrival order), then the rows are written in re-sorted
order, then the file is flushed. -/
def batchEvents (arrival : List OutputRow) : List Event :=
  arrival.map (fun r => Event.itemCompleted r.number) ++
    (sortByNumber arrival).map Event.rowWritten ++ [Event.flushed]

/-- The event trace of the batch loop.  `complete i b` is the arrival
order of batch `i`'s results, a permutation of `b` chosen by the
scheduler-external completion order; the inter-batch sleep happens only
when more batches remain. -/
def runTraceGo (complete : Nat → List OutputRow → List OutputRow) :
    Nat → List (List OutputRow) → List Event
  | _, [] => []
  | i, b :: rest =>
    batchEvents (complete i b) ++
      (if rest.isEmpty then [] else [Event.sleptBetweenBatches]) ++
      runTraceGo complete (i + 1) rest

/-- The task rows of `process_and_save_batch`: line numbers
`start_line .. end_line`, each enriched from the species list
(`species_list[i]` for `i = line_number - 1`). -/
def taskRows (oracle : Oracle) (max_retries : Nat)
    (species_list : List (List Char)) (start_line end_line : Nat) :
    List OutputRow :=
  (List.range' start_line (end_line + 1 - start_line)).map
    (fun n => process_species oracle max_retries n (species_list.getD (n - 1) []))

/-- Full event trace of one `process_and_save_batch` invocation. -/
def schedulerTrace (oracle : Oracle) (max_retries : Nat)
    (species_list : List (List Char)) (start_line end_line batch_size : Nat)
    (complete : Nat → List OutputRow → List OutputRow) : List Event :=
  runTraceGo complete 0
    (chunks batch_size (taskRows oracle max_retries species_list start_line end_line))

/-- The rows a trace writes, in order. -/
def rowsWritten (tr : List Event) : List OutputRow :=
  tr.filterMap (fun e =>
    match e with
    | .rowWritten r => some r
    | _ => none)

/-- The row sequence one `process_and_save_batch` invocation appends to
the output file. -/
def writtenRows (oracle : Oracle) (max_retries : Nat)
    (species_list : List (List Char)) (start_line end_line batch_size : Nat)
    (complete : Nat → List OutputRow → List OutputRow) : List OutputRow :=
  rowsWritten
    (schedulerTrace oracle max_retries species_list start_line end_line batch_size complete)

/-! ### Persistence sink and run setup (`main_async`) -/

/-- A line of the output CSV: the header or a data row. -/
inductive FileLine
  | header
  | row (r : OutputRow)
deriving DecidableEq, Repr

/-- The open mode chosen for the output file (`'w'` / `'a'`). -/
inductive FileMode
  | create
  | append
deriving DecidableEq, Repr

/-- Effect of one invocation on the output file: `'w'` truncates and
writes the header before the rows; `'a'` appends the rows. -/
def fileAfterRun (before : List FileLine) (mode : FileMode)
    (rows : List OutputRow) : List FileLine :=
  match mode with
  | .create => FileLine.header :: rows.map FileLine.row
  | .append => before ++ rows.map FileLine.row

/-- The run plan `main_async` derives from the arguments: open mode,
effective start line, effective end line.  `--line` forces append mode on
exactly that line; otherwise mode is append iff `start > 1` and the
output file exists, and the run extends to the end of the list. -/
def chooseRunPlan (start_arg : Nat) (line_arg : Option Nat)
    (list_len : Nat) (output_exists : Bool) : FileMode × Nat × Nat :=
  match line_arg with
  | some n => (FileMode.append, n, n)
  | none =>
    ((if 1 < start_arg ∧ output_exists then FileMode.append else FileMode.create),
      start_arg, list_len)

/-! ### Properties of the strip helpers -/

theorem dropWhile_head_false (p : Char → Bool) (l : List Char) :
    ∀ c, (l.dropWhile p).head? = some c → p c = false := by
  induction l with
  | nil => intro c h; simp [List.dropWhile] at h
  | cons a t ih =>
    intro c h
    rw [List.dropWhile_cons] at h
    by_cases hp : p a = true
    · exact ih c (by simpa [hp] using h)
    · rw [if_neg hp, List.head?_cons] at h
      cases h
      simpa using hp

theorem dropWhile_eq_self_of_head (p : Char → Bool) (l : List Char)
    (h : ∀ c, l.head? = some c → p c = false) : l.dropWhile p = l := by
  cases l with
  | nil => rfl
  | cons a t => rw [List.dropWhile_cons, h a rfl]; simp

theorem dropTrailing_append_takeWhile (p : Char → Bool) (l : List Char) :
    dropTrailing p l ++ (l.reverse.takeWhile p).reverse = l := by
  rw [dropTrailing, ← List.reverse_append, List.takeWhile_append_dropWhile,
    List.reverse_reverse]

theorem head?_stripWhile_false (p : Char → Bool) (l : List Char) :
    ∀ c, (stripWhile p l).head? = some c → p c = false := by
  intro c h
  have hne : stripWhile p l ≠ [] := by
    intro hnil; rw [hnil] at h; simp at h
  have hdec : stripWhile p l ++ ((List.dropWhile p l).reverse.takeWhile p).reverse =
      List.dropWhile p l :=
    dropTrailing_append_takeWhile p (List.dropWhile p l)
  have hApp :
      (stripWhile p l ++ ((List.dropWhile p l).reverse.takeWhile p).reverse).head? =
        (stripWhile p l).head? :=
    List.head?_append_of_ne_nil _ hne
  apply dropWhile_head_false p l c
  rw [← hdec, hApp]
  exact h

theorem getLast?_stripWhile_false (p : Char → Bool) (l : List Char) :
    ∀ c, (stripWhile p l).getLast? = some c → p c = false := by
  intro c h
  have : stripWhile p l = ((l.dropWhile p).reverse.dropWhile p).reverse := rfl
  rw [this, List.getLast?_reverse] at h
  exact dropWhile_head_false p (l.dropWhile p).reverse c h

theorem stripWhile_eq_self (p : Char → Bool) (l : List Char)
    (h1 : ∀ c, l.head? = some c → p c = false)
    (h2 : ∀ c, l.getLast? = some c → p c = false) : stripWhile p l = l := by
  rw [stripWhile, dropWhile_eq_self_of_head p l h1, dropTrailing,
    dropWhile_eq_self_of_head p l.reverse
      (fun c hc => h2 c (by rwa [List.head?_reverse] at hc)),
    List.reverse_reverse]

theorem stripWhile_idem (p : Char → Bool) (l : List Char) :
    stripWhile p (stripWhile p l) = stripWhile p l :=
  stripWhile_eq_self p _ (head?_stripWhile_false p l) (getLast?_stripWhile_false p l)

theorem mem_of_mem_stripWhile {p : Char → Bool} {l : List Char} {c : Char}
    (h : c ∈ stripWhile p l) : c ∈ l := by
  have : c ∈ (l.dropWhile p).reverse.dropWhile p := by
    rw [stripWhile, dropTrailing, List.mem_reverse] at h
    exact h
  have := (List.dropWhile_sublist p).subset this
  rw [List.mem_reverse] at this
  exact (List.dropWhile_sublist p).subset this

theorem mem_of_mem_quoteStrip {language : Lang} {l : List Char} {c : Char}
    (h : c ∈ quoteStrip language l) : c ∈ l := by
  cases language <;> exact mem_of_mem_stripWhile h

theorem newline_not_mem_firstLineStep (cs : List Char) :
    '\n' ∉ firstLineStep cs := by
  rw [firstLineStep]
  by_cases hmem : '\n' ∈ cs
  · rw [if_pos hmem]
    intro h
    have := List.mem_takeWhile_imp (mem_of_mem_stripWhile h)
    simp at this
  · rw [if_neg hmem]; exact hmem

theorem newline_not_mem_clean (cs : List Char) (language : Lang) :
    '\n' ∉ clean_common_name cs language := by
  intro h
  exact newline_not_mem_firstLineStep (prefixSubs language (pyStrip cs))
    (mem_of_mem_quoteStrip (mem_of_mem_stripWhile h))

theorem pyStrip_clean (cs : List Char) (language : Lang) :
    pyStrip (clean_common_name cs language) = clean_common_name cs language :=
  stripWhile_idem pyIsSpace _

theorem firstLineStep_clean (cs : List Char) (language : Lang) :
    firstLineStep (clean_common_name cs language) = clean_common_name cs language := by
  rw [firstLineStep, if_neg (newline_not_mem_clean cs language)]

/-! ### C7: idempotence of the normalizer -/

/-- C7 (counterexample): the claim "normalize is idempotent for every
string and language" fails on the code.  On `"Name: Lion"` (with literal
surrounding double quotes) the first English pass strips the quotes,
exposing a `Name:` prefix that only the second pass removes. -/
theorem c7_counterexample :
    ¬ (clean_common_name (clean_common_name "\"Name: Lion\"".data Lang.en) Lang.en =
        clean_common_name "\"Name: Lion\"".data Lang.en) := by decide

/-- C7 (amended): the normalizer is idempotent on every input whose
once-normalized form is left unchanged by the language's prefix
substitutions and by its quote strip — i.e. unless stripping quotes or
prefixes exposes new strippable material, a second pass is the identity. -/
theorem c7_amended_idempotent (x : List Char) (language : Lang)
    (h1 : prefixSubs language (clean_common_name x language) =
      clean_common_name x language)
    (h2 : quoteStrip language (clean_common_name x language) =
      clean_common_name x language) :
    clean_common_name (clean_common_name x language) language =
      clean_common_name x language := by
  conv_lhs => rw [clean_common_name]
  rw [pyStrip_clean, h1, firstLineStep_clean, h2]
  exact pyStrip_clean x language

/-- Witness for the amended C7 at a concrete input. -/
theorem c7_amended_idempotent_witness :
    clean_common_name (clean_common_name "  Common Name: \"Lion\" ".data Lang.en) Lang.en =
      clean_common_name "  Common Name: \"Lion\" ".data Lang.en :=
  c7_amended_idempotent "  Common Name: \"Lion\" ".data Lang.en (by decide) (by decide)

/-! ### C8: the normalizer as the spec's step composition -/

/-- The normalizer as the spec enumerates it (§4.1): trim; strip the
language-specific leading prefixes (case-insensitive for English); keep
only the text before the first line break, re-trimmed; strip the
surrounding quote/bracket characters; final trim. -/
def normalize_spec (cs : List Char) (language : Lang) : List Char :=
  let trimmed := pyStrip cs
  let unprefixed := prefixSubs language trimmed
  let first_line := firstLineStep unprefixed
  let unquoted := quoteStrip language first_line
  pyStrip unquoted

/-- C8: `clean_common_name` equals the spec's step composition, and maps
empty or whitespace-only input to the empty string (total by
construction). -/
theorem c8_normalizer_steps :
    (∀ (cs : List Char) (language : Lang),
      clean_common_name cs language = normalize_spec cs language) ∧
    (∀ (cs : List Char) (language : Lang), (∀ c ∈ cs, pyIsSpace c = true) →
      clean_common_name cs language = []) := by
  constructor
  · intro cs language; rfl
  · intro cs language hsp
    have hnil : pyStrip cs = [] := by
      rw [pyStrip, stripWhile, List.dropWhile_eq_nil_iff.2 (fun c hc => hsp c hc)]
      rfl
    rw [clean_common_name, hnil]
    cases language <;> decide

/-- Witness for C8 at concrete inputs. -/
theorem c8_normalizer_steps_witness :
    clean_common_name "  \t ".data Lang.en = [] ∧
    clean_common_name "呼称: ライオン".data Lang.ja =
      normalize_spec "呼称: ライオン".data Lang.ja :=
  ⟨c8_normalizer_steps.2 "  \t ".data Lang.en (by decide),
    c8_normalizer_steps.1 "呼称: ライオン".data Lang.ja⟩

/-! ### C4, C5, C6: the retry policy of `get_common_name` -/

theorem clean_errLabel (language : Lang) :
    clean_common_name errLabel language = errLabel := by
  cases language <;> decide

theorem getCommonNameGo_all_rate_limited (language : Lang) (max_retries : Nat) :
    ∀ (outcomes : List ServiceOutcome) (attempt : Nat),
      outcomes.length = max_retries - attempt →
      attempt ≤ max_retries →
      (∀ o ∈ outcomes, ∃ m, o = ServiceOutcome.failure m ∧ isRateLimitMsg m = true) →
      getCommonNameGo language max_retries attempt outcomes =
        ⟨errLabel, max_retries,
          (List.range' (attempt + 1) (max_retries - attempt)).map (fun k => 10 * k)⟩ := by
  intro outcomes
  induction outcomes with
  | nil =>
    intro attempt hlen hle _
    have ha : attempt = max_retries := by simp at hlen; omega
    subst ha
    simp [getCommonNameGo, Nat.sub_self]
  | cons o rest ih =>
    intro attempt hlen hrle hrl
    obtain ⟨m, rfl, hm⟩ := hrl o (List.mem_cons_self o rest)
    have hlt : attempt < max_retries := by simp at hlen; omega
    by_cases hfin : attempt = max_retries - 1
    · have h1 : max_retries - attempt = 1 := by omega
      have h2 : attempt + 1 = max_retries := by omega
      simp [getCommonNameGo, if_pos hlt, hm, if_pos hfin, h1, h2, List.range'_succ]
    · have hrec := ih (attempt + 1) (by simp at hlen ⊢; omega) (by omega)
        (fun o ho => hrl o (List.mem_cons_of_mem _ ho))
      simp only [getCommonNameGo, if_pos hlt, hm, if_true, if_neg hfin, hrec]
      have h3 : max_retries - attempt = (max_retries - (attempt + 1)) + 1 := by omega
      rw [h3, List.range'_succ, List.map_cons]

/-- C4: if every service call raises a rate-limit-classified error, the
client makes exactly `max_retries` attempts, sleeps `10 × attempt_number`
after each rate-limited attempt (attempt numbers `1 .. max_retries`), and
returns the sentinel failure value instead of raising. -/
theorem c4_backoff_bound (language : Lang) (max_retries : Nat)
    (outcomes : List ServiceOutcome)
    (hlen : outcomes.length = max_retries)
    (hrl : ∀ o ∈ outcomes, ∃ m, o = ServiceOutcome.failure m ∧ isRateLimitMsg m = true) :
    get_common_name outcomes language max_retries =
      ⟨errLabel, max_retries, (List.range' 1 max_retries).map (fun k => 10 * k)⟩ := by
  have h := getCommonNameGo_all_rate_limited language max_retries outcomes 0
    (by omega) (Nat.zero_le _) hrl
  simpa [get_common_name] using h

/-- Witness for C4 at the default `max_retries = 10`. -/
theorem c4_backoff_bound_witness :
    get_common_name (List.replicate 10 (ServiceOutcome.failure "HTTP 429".data)) Lang.en 10 =
      ⟨errLabel, 10, [10, 20, 30, 40, 50, 60, 70, 80, 90, 100]⟩ := by
  have h := c4_backoff_bound Lang.en 10
    (List.replicate 10 (ServiceOutcome.failure "HTTP 429".data)) (by decide)
    (fun o ho => ⟨"HTTP 429".data, List.eq_of_mem_replicate ho, by decide⟩)
  rw [h]
  decide

theorem getCommonNameGo_rl_prefix_skip (language : Lang) (max_retries : Nat) :
    ∀ (pre : List ServiceOutcome) (attempt : Nat) (l : List ServiceOutcome),
      (∀ o ∈ pre, ∃ m, o = ServiceOutcome.failure m ∧ isRateLimitMsg m = true) →
      attempt + pre.length < max_retries →
      getCommonNameGo language max_retries attempt (pre ++ l) =
        ⟨(getCommonNameGo language max_retries (attempt + pre.length) l).result,
          (getCommonNameGo language max_retries (attempt + pre.length) l).attemptsMade,
          (List.range' (attempt + 1) pre.length).map (fun k => 10 * k) ++
            (getCommonNameGo language max_retries (attempt + pre.length) l).sleeps⟩ := by
  intro pre
  induction pre with
  | nil => intro attempt l _ _; simp
  | cons o rest ih =>
    intro attempt l hrl hlt
    obtain ⟨m, rfl, hm⟩ := hrl o (List.mem_cons_self o rest)
    have hl1 : attempt < max_retries := by simp at hlt; omega
    have hfin : ¬(attempt = max_retries - 1) := by simp at hlt; omega
    have hrec := ih (attempt + 1) l (fun o ho => hrl o (List.mem_cons_of_mem _ ho))
      (by simp at hlt ⊢; omega)
    simp only [List.cons_append, getCommonNameGo, if_pos hl1, hm, if_true, if_neg hfin,
      hrec]
    have h3 : attempt + 1 + rest.length = attempt + (rest.length + 1) := by omega
    simp only [List.append_eq, List.length_cons, h3, List.range'_succ, List.map_cons,
      List.cons_append, hrec]

/-- C5: an error not classified as rate-limit makes `get_common_name`
return the sentinel immediately after that attempt — no further attempt,
no exception — at whatever attempt position it occurs. -/
theorem c5_non_rate_limit_no_retry (language : Lang) (max_retries : Nat)
    (pre : List ServiceOutcome) (m : List Char) (rest : List ServiceOutcome)
    (hpre : ∀ o ∈ pre, ∃ m', o = ServiceOutcome.failure m' ∧ isRateLimitMsg m' = true)
    (hm : isRateLimitMsg m = false)
    (hlt : pre.length < max_retries) :
    (get_common_name (pre ++ ServiceOutcome.failure m :: rest) language
        max_retries).result = errLabel ∧
    (get_common_name (pre ++ ServiceOutcome.failure m :: rest) language
        max_retries).attemptsMade = pre.length + 1 := by
  rw [get_common_name,
    getCommonNameGo_rl_prefix_skip language max_retries pre 0 _ hpre (by omega)]
  simp [getCommonNameGo, Nat.zero_add, hlt, hm]

/-- Witness for C5: a non-rate-limit error on the second attempt. -/
theorem c5_non_rate_limit_no_retry_witness :
    (get_common_name
        ([ServiceOutcome.failure "HTTP 429".data] ++
          ServiceOutcome.failure "parse boom".data ::
            [ServiceOutcome.success (some "Lion".data)]) Lang.en 10).result = errLabel ∧
    (get_common_name
        ([ServiceOutcome.failure "HTTP 429".data] ++
          ServiceOutcome.failure "parse boom".data ::
            [ServiceOutcome.success (some "Lion".data)]) Lang.en 10).attemptsMade = 2 :=
  c5_non_rate_limit_no_retry Lang.en 10 [ServiceOutcome.failure "HTTP 429".data]
    "parse boom".data [ServiceOutcome.success (some "Lion".data)]
    (fun o ho => ⟨"HTTP 429".data, by simpa using ho, by decide⟩)
    (by decide) (by decide)

/-- C6: a successful response with no parsable structured field yields the
sentinel from that attempt, with no retry and no further call; a
successful response with a parsed field yields that field passed through
the normalizer. -/
theorem c6_parsed_field_handling (language : Lang) (max_retries : Nat)
    (pre : List ServiceOutcome) (rest : List ServiceOutcome)
    (hpre : ∀ o ∈ pre, ∃ m', o = ServiceOutcome.failure m' ∧ isRateLimitMsg m' = true)
    (hlt : pre.length < max_retries) :
    ((get_common_name (pre ++ ServiceOutcome.success none :: rest) language
        max_retries).result = errLabel ∧
      (get_common_name (pre ++ ServiceOutcome.success none :: rest) language
        max_retries).attemptsMade = pre.length + 1) ∧
    (∀ s, (get_common_name (pre ++ ServiceOutcome.success (some s) :: rest) language
        max_retries).result = clean_common_name s language ∧
      (get_common_name (pre ++ ServiceOutcome.success (some s) :: rest) language
        max_retries).attemptsMade = pre.length + 1) := by
  refine ⟨?_, fun s => ?_⟩ <;>
    rw [get_common_name,
      getCommonNameGo_rl_prefix_skip language max_retries pre 0 _ hpre (by omega)] <;>
    simp [getCommonNameGo, Nat.zero_add, hlt, clean_errLabel]

/-- Witness for C6 on first-attempt outcomes. -/
theorem c6_parsed_field_handling_witness :
    ((get_common_name ([] ++ ServiceOutcome.success none :: []) Lang.ja 10).result =
        errLabel ∧
      (get_common_name ([] ++ ServiceOutcome.success none :: []) Lang.ja 10).attemptsMade =
        0 + 1) ∧
    (∀ s, (get_common_name ([] ++ ServiceOutcome.success (some s) :: []) Lang.ja
        10).result = clean_common_name s Lang.ja ∧
      (get_common_name ([] ++ ServiceOutcome.success (some s) :: []) Lang.ja
        10).attemptsMade = 0 + 1) := by
  have h := c6_parsed_field_handling Lang.ja 10 [] [] (fun o ho => absurd ho (by simp))
    (by decide)
  simpa using h

/-! ### C9: output-file open mode selection in `main_async` -/

/-- C9: the output is opened in append mode exactly when single-line mode
is requested or `start > 1` and the file exists; any other run opens in
create mode, which truncates whatever existed (the result is independent
of the prior content) and writes the header first.  In particular the
default `start = 1` overwrites prior output, and a resume with
`start > 1` against a missing file silently creates a fresh file. -/
theorem c9_file_mode_choice (start_arg : Nat) (line_arg : Option Nat)
    (list_len : Nat) (output_exists : Bool) :
    ((chooseRunPlan start_arg line_arg list_len output_exists).1 = FileMode.append ↔
      (line_arg.isSome = true ∨ (1 < start_arg ∧ output_exists = true))) ∧
    (∀ (before : List FileLine) (rows : List OutputRow),
      fileAfterRun before FileMode.create rows =
        FileLine.header :: rows.map FileLine.row) := by
  refine ⟨?_, fun before rows => rfl⟩
  cases line_arg with
  | some n => simp [chooseRunPlan]
  | none =>
    by_cases h : 1 < start_arg ∧ output_exists = true
    · simp [chooseRunPlan, h]
    · simp only [chooseRunPlan, if_neg h, Option.isSome_none]
      simp [h]

/-! ### Scheduler lemmas: chunking, sorting, trace -/

theorem process_species_number (oracle : Oracle) (max_retries : Nat)
    (line_number : Nat) (species : List Char) :
    (process_species oracle max_retries line_number species).number = line_number := rfl

/-- Strict number-sortedness from weak sortedness plus distinct numbers. -/
theorem pairwise_numLT_of_sorted_nodup {l : List OutputRow}
    (hs : List.Sorted byNumber l) (hnd : (l.map (fun r => r.number)).Nodup) :
    l.Pairwise (fun a b => a.number < b.number) := by
  have hne : l.Pairwise (fun a b => a.number ≠ b.number) := List.pairwise_map.1 hnd
  exact (hs.and hne).imp (fun h => lt_of_le_of_ne h.1 h.2)

instance : IsAntisymm OutputRow (fun a b => a.number < b.number) :=
  ⟨fun a b hab hba => absurd hab (Nat.lt_asymm hba)⟩

/-- A strictly number-sorted batch is recovered exactly by the re-sort,
whatever the arrival permutation was. -/
theorem sortByNumber_of_perm {arrival b : List OutputRow}
    (hperm : arrival.Perm b)
    (hb : b.Pairwise (fun a c => a.number < c.number)) :
    sortByNumber arrival = b := by
  have hp : (sortByNumber arrival).Perm b :=
    (List.perm_insertionSort byNumber arrival).trans hperm
  have hnd : ((sortByNumber arrival).map (fun r => r.number)).Nodup := by
    have hbnd : (b.map (fun r => r.number)).Nodup :=
      List.Pairwise.imp (fun h => Nat.ne_of_lt h) (List.pairwise_map.2 hb)
    exact ((hp.map (fun r => r.number)).nodup_iff).2 hbnd
  have hs : (sortByNumber arrival).Pairwise (fun a c => a.number < c.number) :=
    pairwise_numLT_of_sorted_nodup (List.sorted_insertionSort byNumber arrival) hnd
  exact List.eq_of_perm_of_sorted hp hs hb

/-- Every chunk is a sublist of the chunked list. -/
theorem sublist_of_mem_chunksGo (bs : Nat) :
    ∀ (fuel : Nat) (l b : List OutputRow), b ∈ chunksGo bs fuel l → b.Sublist l := by
  intro fuel
  induction fuel with
  | zero => intro l b h; simp [chunksGo] at h
  | succ fuel ih =>
    intro l b h
    cases l with
    | nil => simp [chunksGo] at h
    | cons x t =>
      rw [chunksGo] at h
      rcases List.mem_cons.1 h with h1 | h2
      · exact h1 ▸ List.take_sublist bs (x :: t)
      · exact (ih _ b h2).trans (List.drop_sublist bs (x :: t))

/-- Chunking with a positive batch size loses and reorders nothing. -/
theorem flatten_chunksGo (bs : Nat) (hbs : 0 < bs) :
    ∀ (fuel : Nat) (l : List OutputRow), l.length ≤ fuel →
      (chunksGo bs fuel l).flatten = l := by
  intro fuel
  induction fuel with
  | zero =>
    intro l hl
    have : l = [] := List.eq_nil_of_length_eq_zero (Nat.le_zero.1 hl)
    subst this; rfl
  | succ fuel ih =>
    intro l hl
    cases l with
    | nil => rfl
    | cons x t =>
      rw [chunksGo, List.flatten_cons,
        ih (List.drop bs (x :: t)) (by simp [List.length_drop] at hl ⊢; omega),
        List.take_append_drop]

theorem flatten_chunks (bs : Nat) (hbs : 0 < bs) (l : List OutputRow) :
    (chunks bs l).flatten = l :=
  flatten_chunksGo bs hbs l.length l (Nat.le_refl _)

theorem sublist_of_mem_chunks (bs : Nat) (l b : List OutputRow)
    (h : b ∈ chunks bs l) : b.Sublist l :=
  sublist_of_mem_chunksGo bs l.length l b h

/-- Rows written by one batch iteration: exactly the re-sorted arrivals. -/
theorem rowsWritten_batchEvents (arrival : List OutputRow) :
    rowsWritten (batchEvents arrival) = sortByNumber arrival := by
  simp only [rowsWritten, batchEvents, List.filterMap_append, List.filterMap_map]
  have h1 : List.filterMap
      ((fun e => match e with
        | Event.rowWritten r => some r
        | _ => none) ∘ fun r => Event.itemCompleted r.number) arrival = [] := by
    simp [Function.comp]
  have h2 : List.filterMap
      ((fun e => match e with
        | Event.rowWritten r => some r
        | _ => none) ∘ Event.rowWritten) (sortByNumber arrival) =
      sortByNumber arrival :=
    List.filterMap_some _
  rw [h1, h2]
  simp

theorem rowsWritten_append (a b : List Event) :
    rowsWritten (a ++ b) = rowsWritten a ++ rowsWritten b :=
  List.filterMap_append a b _

/-- The rows written by the whole batch loop, when every chunk is already
strictly sorted by number, are the chunks in order. -/
theorem rowsWritten_runTraceGo (complete : Nat → List OutputRow → List OutputRow)
    (hc : ∀ i b, (complete i b).Perm b) :
    ∀ (L : List (List OutputRow)) (i : Nat),
      (∀ b ∈ L, b.Pairwise (fun a c => a.number < c.number)) →
      rowsWritten (runTraceGo complete i L) = L.flatten := by
  intro L
  induction L with
  | nil => intro i _; rfl
  | cons b rest ih =>
    intro i hL
    have hsleep :
        rowsWritten (if rest.isEmpty then [] else [Event.sleptBetweenBatches]) = [] := by
      cases rest <;> rfl
    rw [runTraceGo, rowsWritten_append, rowsWritten_append,
      rowsWritten_batchEvents,
      sortByNumber_of_perm (hc i b) (hL b (List.mem_cons_self b rest)), hsleep,
      ih (i + 1) (fun c hcm => hL c (List.mem_cons_of_mem _ hcm)), List.flatten_cons,
      List.append_nil]

/-- The task list is the mapped ordinal range. -/
theorem taskRows_eq_map (oracle : Oracle) (max_retries : Nat)
    (species_list : List (List Char)) (start_line end_line : Nat) :
    taskRows oracle max_retries species_list start_line end_line =
      (List.range' start_line (end_line + 1 - start_line)).map
        (fun n => process_species oracle max_retries n
          (species_list.getD (n - 1) [])) := rfl

theorem taskRows_pairwise (oracle : Oracle) (max_retries : Nat)
    (species_list : List (List Char)) (start_line end_line : Nat) :
    (taskRows oracle max_retries species_list start_line end_line).Pairwise
      (fun a c => a.number < c.number) := by
  rw [taskRows_eq_map]
  refine List.pairwise_map.2 ?_
  have := List.pairwise_lt_range' start_line (end_line + 1 - start_line)
  exact this.imp (fun h => by simpa [process_species_number] using h)

/-- What `process_and_save_batch` appends: with a positive batch size and
arbitrary per-batch completion orders, exactly the task rows in order. -/
theorem writtenRows_eq_taskRows (oracle : Oracle) (max_retries : Nat)
    (species_list : List (List Char)) (start_line end_line batch_size : Nat)
    (complete : Nat → List OutputRow → List OutputRow)
    (hbs : 0 < batch_size)
    (hc : ∀ i b, (complete i b).Perm b) :
    writtenRows oracle max_retries species_list start_line end_line batch_size complete =
      taskRows oracle max_retries species_list start_line end_line := by
  rw [writtenRows, schedulerTrace,
    rowsWritten_runTraceGo complete hc
      (chunks batch_size (taskRows oracle max_retries species_list start_line end_line)) 0
      (fun b hb =>
        List.Pairwise.sublist (sublist_of_mem_chunks batch_size _ b hb)
          (taskRows_pairwise oracle max_retries species_list start_line end_line)),
    flatten_chunks batch_size hbs]

/-! ### C1: persisted ordering -/

/-- C1: for any run range, any positive batch size and any completion
order of the concurrent enrichment tasks, the rows written by the batch
scheduler carry exactly the ordinals `start_line .. end_line`, strictly
increasing. -/
theorem c1_persisted_ordering (oracle : Oracle) (max_retries : Nat)
    (species_list : List (List Char)) (start_line end_line batch_size : Nat)
    (complete : Nat → List OutputRow → List OutputRow)
    (hstart : 1 ≤ start_line)
    (hbs : 0 < batch_size)
    (hc : ∀ i b, (complete i b).Perm b) :
    (writtenRows oracle max_retries species_list start_line end_line batch_size
        complete).map (fun r => r.number) =
      List.range' start_line (end_line + 1 - start_line) ∧
    ((writtenRows oracle max_retries species_list start_line end_line batch_size
        complete).map (fun r => r.number)).Pairwise (· < ·) := by
  have heq : (writtenRows oracle max_retries species_list start_line end_line
      batch_size complete).map (fun r => r.number) =
      List.range' start_line (end_line + 1 - start_line) := by
    rw [writtenRows_eq_taskRows oracle max_retries species_list start_line end_line
      batch_size complete hbs hc, taskRows_eq_map, List.map_map]
    simp [Function.comp_def, process_species_number]
  exact ⟨heq, heq ▸ List.pairwise_lt_range' _ _⟩

/-- Witness for C1: range `[1,5]`, batch size 2, reversed completions. -/
theorem c1_persisted_ordering_witness :
    (writtenRows (fun _ _ => []) 10 [] 1 5 2 (fun _ b => b.reverse)).map
        (fun r => r.number) = List.range' 1 5 ∧
    ((writtenRows (fun _ _ => []) 10 [] 1 5 2 (fun _ b => b.reverse)).map
        (fun r => r.number)).Pairwise (· < ·) := by
  have h := c1_persisted_ordering (fun _ _ => []) 10 [] 1 5 2 (fun _ b => b.reverse)
    (by decide) (by decide) (fun i b => List.reverse_perm b)
  simpa using h

/-! ### C2: batch atomicity -/

theorem runTraceGo_decompose (complete : Nat → List OutputRow → List OutputRow) :
    ∀ (L : List (List OutputRow)) (i0 : Nat) (p : Nat × List OutputRow),
      p ∈ L.enumFrom i0 →
      ∃ pre post, runTraceGo complete i0 L =
        pre ++ batchEvents (complete p.1 p.2) ++ post := by
  intro L
  induction L with
  | nil => intro i0 p h; simp [List.enumFrom] at h
  | cons b rest ih =>
    intro i0 p h
    rw [List.enumFrom] at h
    rcases List.mem_cons.1 h with h1 | h2
    · subst h1
      exact ⟨[], (if rest.isEmpty then [] else [Event.sleptBetweenBatches]) ++
        runTraceGo complete (i0 + 1) rest, by simp [runTraceGo, List.append_assoc]⟩
    · obtain ⟨pre, post, hpp⟩ := ih (i0 + 1) p h2
      refine ⟨batchEvents (complete i0 b) ++
        (if rest.isEmpty then [] else [Event.sleptBetweenBatches]) ++ pre, post, ?_⟩
      rw [runTraceGo, hpp]
      simp [List.append_assoc]

theorem batchEvents_no_write_before_completions (arrival b : List OutputRow)
    (hperm : arrival.Perm b) :
    ∀ pre post, batchEvents arrival = pre ++ post →
      (∃ r, Event.rowWritten r ∈ pre) →
      ∀ r ∈ b, Event.itemCompleted r.number ∈ pre := by
  intro pre post hsplit hwr r hrb
  obtain ⟨r0, hr0⟩ := hwr
  have htr : batchEvents arrival =
      arrival.map (fun x => Event.itemCompleted x.number) ++
        ((sortByNumber arrival).map Event.rowWritten ++ [Event.flushed]) := by
    rw [batchEvents, List.append_assoc]
  have hmemc : Event.itemCompleted r.number ∈
      arrival.map (fun x => Event.itemCompleted x.number) :=
    List.mem_map.2 ⟨r, hperm.mem_iff.2 hrb, rfl⟩
  by_cases hlen : pre.length ≤ (arrival.map (fun x => Event.itemCompleted x.number)).length
  · exfalso
    have hpre : pre = (arrival.map (fun x => Event.itemCompleted x.number)).take pre.length := by
      calc pre = (pre ++ post).take pre.length := (List.take_left pre post).symm
        _ = (batchEvents arrival).take pre.length := by rw [hsplit]
        _ = (arrival.map (fun x => Event.itemCompleted x.number) ++
            ((sortByNumber arrival).map Event.rowWritten ++ [Event.flushed])).take
              pre.length := by rw [htr]
        _ = (arrival.map (fun x => Event.itemCompleted x.number)).take pre.length :=
          List.take_append_of_le_length hlen
    have hr0' : Event.rowWritten r0 ∈
        arrival.map (fun x => Event.itemCompleted x.number) :=
      List.take_subset _ _ (hpre ▸ hr0)
    obtain ⟨x, _, hx⟩ := List.mem_map.1 hr0'
    exact Event.noConfusion hx
  · push_neg at hlen
    have hcl : (arrival.map (fun x => Event.itemCompleted x.number)).length ≤ pre.length :=
      Nat.le_of_lt hlen
    have hcomps_pre : arrival.map (fun x => Event.itemCompleted x.number) =
        pre.take (arrival.map (fun x => Event.itemCompleted x.number)).length := by
      calc arrival.map (fun x => Event.itemCompleted x.number)
          = (batchEvents arrival).take
              (arrival.map (fun x => Event.itemCompleted x.number)).length := by
            rw [htr]; exact (List.take_left _ _).symm
        _ = (pre ++ post).take
              (arrival.map (fun x => Event.itemCompleted x.number)).length := by
            rw [hsplit]
        _ = pre.take (arrival.map (fun x => Event.itemCompleted x.number)).length :=
          List.take_append_of_le_length hcl
    exact List.take_subset _ _ (hcomps_pre ▸ hmemc)

/-- C2: for every batch of the run, the sink receives exactly that
batch's rows (all `N`, never a strict subset), and within the batch's
trace segment no row write precedes any item completion: any prefix of
the segment containing a write already contains every completion. -/
theorem c2_batch_atomicity (oracle : Oracle) (max_retries : Nat)
    (species_list : List (List Char)) (start_line end_line batch_size : Nat)
    (complete : Nat → List OutputRow → List OutputRow)
    (hc : ∀ i b, (complete i b).Perm b) :
    ∀ p ∈ (chunks batch_size
        (taskRows oracle max_retries species_list start_line end_line)).enum,
      (∃ pre post,
        schedulerTrace oracle max_retries species_list start_line end_line
            batch_size complete =
          pre ++ batchEvents (complete p.1 p.2) ++ post) ∧
      (rowsWritten (batchEvents (complete p.1 p.2))).Perm p.2 ∧
      (∀ pre post, batchEvents (complete p.1 p.2) = pre ++ post →
        (∃ r, Event.rowWritten r ∈ pre) →
        ∀ r ∈ p.2, Event.itemCompleted r.number ∈ pre) := by
  intro p hp
  refine ⟨?_, ?_, ?_⟩
  · exact runTraceGo_decompose complete _ 0 p hp
  · rw [rowsWritten_batchEvents]
    exact (List.perm_insertionSort byNumber _).trans (hc p.1 p.2)
  · exact batchEvents_no_write_before_completions _ _ (hc p.1 p.2)

/-- Witness for C2: a two-item run with batch size 1, first batch. -/
theorem c2_batch_atomicity_witness :
    (∃ pre post,
      schedulerTrace (fun _ _ => []) 10 [] 1 2 1 (fun _ b => b.reverse) =
        pre ++ batchEvents ((fun _ (b : List OutputRow) => b.reverse) 0
          [⟨1, [], errLabel, errLabel⟩]) ++ post) ∧
    (rowsWritten (batchEvents ((fun _ (b : List OutputRow) => b.reverse) 0
        [⟨1, [], errLabel, errLabel⟩]))).Perm [⟨1, [], errLabel, errLabel⟩] ∧
    (∀ pre post, batchEvents ((fun _ (b : List OutputRow) => b.reverse) 0
        [⟨1, [], errLabel, errLabel⟩]) = pre ++ post →
      (∃ r, Event.rowWritten r ∈ pre) →
      ∀ r ∈ [(⟨1, [], errLabel, errLabel⟩ : OutputRow)],
        Event.itemCompleted r.number ∈ pre) :=
  c2_batch_atomicity (fun _ _ => []) 10 [] 1 2 1 (fun _ b => b.reverse)
    (fun _ b => List.reverse_perm b)
    (0, [⟨1, [], errLabel, errLabel⟩]) (by decide)

/-! ### C3: resume equivalence -/

/-- C3: running `[1,5]` in create mode and then `[6,10]` in append mode
yields the same file content — same header, same ten rows in the same
order — as one `[1,10]` run in create mode, for any positive batch sizes
and any completion orders, given the same service behaviour per
(species, language) pair. -/
theorem c3_resume_equivalence (oracle : Oracle) (max_retries : Nat)
    (species_list : List (List Char)) (bs₁ bs₂ bs₃ : Nat)
    (c₁ c₂ c₃ : Nat → List OutputRow → List OutputRow)
    (h₁ : 0 < bs₁) (h₂ : 0 < bs₂) (h₃ : 0 < bs₃)
    (hc₁ : ∀ i b, (c₁ i b).Perm b) (hc₂ : ∀ i b, (c₂ i b).Perm b)
    (hc₃ : ∀ i b, (c₃ i b).Perm b) :
    fileAfterRun
      (fileAfterRun [] FileMode.create
        (writtenRows oracle max_retries species_list 1 5 bs₁ c₁))
      FileMode.append
      (writtenRows oracle max_retries species_list 6 10 bs₂ c₂) =
    fileAfterRun [] FileMode.create
      (writtenRows oracle max_retries species_list 1 10 bs₃ c₃) := by
  rw [writtenRows_eq_taskRows oracle max_retries species_list 1 5 bs₁ c₁ h₁ hc₁,
    writtenRows_eq_taskRows oracle max_retries species_list 6 10 bs₂ c₂ h₂ hc₂,
    writtenRows_eq_taskRows oracle max_retries species_list 1 10 bs₃ c₃ h₃ hc₃]
  simp only [fileAfterRun, List.cons_append]
  congr 1

/-- Witness for C3 at concrete parameters. -/
theorem c3_resume_equivalence_witness :
    fileAfterRun
      (fileAfterRun [] FileMode.create
        (writtenRows (fun _ _ => []) 10 [] 1 5 1 (fun _ b => b.reverse)))
      FileMode.append
      (writtenRows (fun _ _ => []) 10 [] 6 10 2 (fun _ b => b.reverse)) =
    fileAfterRun [] FileMode.create
      (writtenRows (fun _ _ => []) 10 [] 1 10 3 (fun _ b => b.reverse)) :=
  c3_resume_equivalence (fun _ _ => []) 10 [] 1 2 3
    (fun _ b => b.reverse) (fun _ b => b.reverse) (fun _ b => b.reverse)
    (by decide) (by decide) (by decide)
    (fun _ b => List.reverse_perm b) (fun _ b => List.reverse_perm b)
    (fun _ b => List.reverse_perm b)

/-! ### Grouping utilities (`en_csv_to_jsonl.py` / `jp_csv_to_jsonl.py`)

Both scripts are the same transform modulo the label column name: read
`(scientific_name, label)` rows, bucket scientific names by label in a
`defaultdict(list)` (insertion-ordered, appends in row order), then emit
one JSON object per group, iterating `sorted(d.items())` — the keys are
distinct, so tuple comparison is key comparison.  Each list entry below
stands for one output line. -/

/-- Model of the `defaultdict(list)` update: append `value` to `key`'s bucket, keys
kept in first-insertion order. -/
def insertGroup (key value : String) :
    List (String × List String) → List (String × List String)
  | [] => [(key, [value])]
  | (k, vs) :: rest =>
    if k = key then (k, vs ++ [value]) :: rest
    else (k, vs) :: insertGroup key value rest

/-- The grouping pass over the CSV rows `(scientific_name, label)`. -/
def buildGroups (rows : List (String × String)) : List (String × List String) :=
  rows.foldl (fun acc r => insertGroup r.2 r.1 acc) []

/-- Key order used by `sorted(d.items())` (keys are pairwise distinct). -/
def byKey (a b : String × List String) : Prop := a.1 ≤ b.1

instance : DecidableRel byKey := fun a b => inferInstanceAs (Decidable (a.1 ≤ b.1))

instance : IsTotal (String × List String) byKey := ⟨fun a b => le_total a.1 b.1⟩

instance : IsTrans (String × List String) byKey := ⟨fun _ _ _ h1 h2 => le_trans h1 h2⟩

/-- Model of `csv_to_jsonl`: the grouped export, one entry per output line. -/
def csv_to_jsonl (rows : List (String × String)) : List (String × List String) :=
  List.insertionSort byKey (buildGroups rows)

example :
    buildGroups [("Panthera leo", "Lion"), ("Canis lupus", "Wolf"),
      ("Panthera leo persica", "Lion")] =
    [("Lion", ["Panthera leo", "Panthera leo persica"]), ("Wolf", ["Canis lupus"])] := by
  decide

/-- Association lookup in the grouped accumulator. -/
def groupLookup (key : String) : List (String × List String) → Option (List String)
  | [] => none
  | (k, vs) :: rest => if k = key then some vs else groupLookup key rest

theorem mem_keys_insertGroup (key value : String) :
    ∀ (acc : List (String × List String)) (x : String),
      x ∈ (insertGroup key value acc).map Prod.fst ↔
        x = key ∨ x ∈ acc.map Prod.fst := by
  intro acc
  induction acc with
  | nil => intro x; simp [insertGroup]
  | cons e rest ih =>
    intro x
    obtain ⟨k, vs⟩ := e
    by_cases h : k = key
    · subst h
      simp [insertGroup]
    · simp [insertGroup, h, ih x]
      tauto

theorem nodup_keys_insertGroup (key value : String) :
    ∀ acc : List (String × List String),
      (acc.map Prod.fst).Nodup → ((insertGroup key value acc).map Prod.fst).Nodup := by
  intro acc
  induction acc with
  | nil => intro _; simp [insertGroup]
  | cons e rest ih =>
    intro hnd
    obtain ⟨k, vs⟩ := e
    simp only [List.map_cons, List.nodup_cons] at hnd
    rw [insertGroup]
    by_cases h : k = key
    · rw [if_pos h]
      simp only [List.map_cons, List.nodup_cons]
      exact hnd
    · rw [if_neg h]
      simp only [List.map_cons, List.nodup_cons]
      refine ⟨?_, ih hnd.2⟩
      rw [mem_keys_insertGroup]
      rintro (h1 | h2)
      · exact h h1
      · exact hnd.1 h2

theorem groupLookup_insertGroup (key value k' : String) :
    ∀ acc, groupLookup k' (insertGroup key value acc) =
      if k' = key then some ((groupLookup key acc).getD [] ++ [value])
      else groupLookup k' acc := by
  intro acc
  induction acc with
  | nil =>
    by_cases h : k' = key
    · subst h; simp [insertGroup, groupLookup]
    · have h' : ¬(key = k') := fun e => h e.symm
      simp [insertGroup, groupLookup, h, h']
  | cons e rest ih =>
    obtain ⟨k, vs⟩ := e
    rw [insertGroup]
    by_cases h1 : k = key
    · subst h1
      rw [if_pos rfl]
      by_cases h2 : k' = k
      · subst h2; simp [groupLookup]
      · have h2' : ¬(k = k') := fun e => h2 e.symm
        simp [groupLookup, h2, h2']
    · rw [if_neg h1]
      by_cases h3 : k = k'
      · subst h3
        simp [groupLookup, h1]
      · simp [groupLookup, h1, h3, ih]

theorem groupLookup_foldl_getD (k : String) :
    ∀ (rows : List (String × String)) (acc : List (String × List String)),
      (groupLookup k (rows.foldl (fun acc r => insertGroup r.2 r.1 acc) acc)).getD [] =
        (groupLookup k acc).getD [] ++ (rows.filter (fun r => r.2 = k)).map Prod.fst := by
  intro rows
  induction rows with
  | nil => intro acc; simp
  | cons e rest ih =>
    intro acc
    obtain ⟨sn, en⟩ := e
    rw [List.foldl_cons, ih (insertGroup en sn acc), groupLookup_insertGroup]
    by_cases h : k = en
    · subst h
      simp [List.filter_cons, List.append_assoc]
    · have h' : ¬(en = k) := fun e => h e.symm
      simp [List.filter_cons, h, h']

theorem groupLookup_foldl_isSome (k : String) :
    ∀ (rows : List (String × String)) (acc : List (String × List String)),
      (groupLookup k (rows.foldl (fun acc r => insertGroup r.2 r.1 acc) acc)).isSome =
        ((groupLookup k acc).isSome || rows.any (fun r => r.2 = k)) := by
  intro rows
  induction rows with
  | nil => intro acc; simp
  | cons e rest ih =>
    intro acc
    obtain ⟨sn, en⟩ := e
    rw [List.foldl_cons, ih (insertGroup en sn acc), groupLookup_insertGroup]
    by_cases h : k = en
    · subst h; simp
    · have h' : ¬(en = k) := fun e => h e.symm
      simp [h, h']

theorem groupLookup_isSome_iff (k : String) :
    ∀ l : List (String × List String),
      (groupLookup k l).isSome = true ↔ k ∈ l.map Prod.fst := by
  intro l
  induction l with
  | nil => simp [groupLookup]
  | cons e rest ih =>
    obtain ⟨k', vs⟩ := e
    by_cases h : k' = k
    · subst h; simp [groupLookup]
    · have h' : ¬(k = k') := fun e => h e.symm
      simp [groupLookup, h, h', ih]

theorem groupLookup_of_mem_nodup :
    ∀ (l : List (String × List String)), (l.map Prod.fst).Nodup →
      ∀ e ∈ l, groupLookup e.1 l = some e.2 := by
  intro l
  induction l with
  | nil => intro _ e he; simp at he
  | cons x rest ih =>
    intro hnd e he
    obtain ⟨k, vs⟩ := x
    simp only [List.map_cons, List.nodup_cons] at hnd
    rcases List.mem_cons.1 he with h1 | h2
    · subst h1; simp [groupLookup]
    · have hke : k ≠ e.1 := by
        intro hk
        apply hnd.1
        exact hk ▸ List.mem_map.2 ⟨e, h2, rfl⟩
      simp only [groupLookup, if_neg hke]
      exact ih hnd.2 e h2

theorem nodup_keys_foldl :
    ∀ (rows : List (String × String)) (acc : List (String × List String)),
      (acc.map Prod.fst).Nodup →
      ((rows.foldl (fun acc r => insertGroup r.2 r.1 acc) acc).map Prod.fst).Nodup := by
  intro rows
  induction rows with
  | nil => intro acc h; exact h
  | cons e rest ih =>
    intro acc h
    exact ih _ (nodup_keys_insertGroup e.2 e.1 acc h)

/-! ### C10: the grouped export -/

/-- C10: the grouped export has one entry (one JSON line) per distinct
label, entries strictly ordered by label; a label appears iff some row
carried it; and each entry's list is exactly the identifiers that carried
that label, in row order. -/
theorem c10_grouping (rows : List (String × String)) :
    (csv_to_jsonl rows).Pairwise (fun a b => a.1 < b.1) ∧
    (∀ k, k ∈ (csv_to_jsonl rows).map Prod.fst ↔ k ∈ rows.map Prod.snd) ∧
    (∀ e ∈ csv_to_jsonl rows, e.2 = (rows.filter (fun r => r.2 = e.1)).map Prod.fst) := by
  have hperm : (csv_to_jsonl rows).Perm (buildGroups rows) :=
    List.perm_insertionSort byKey (buildGroups rows)
  have hnd : ((buildGroups rows).map Prod.fst).Nodup :=
    nodup_keys_foldl rows [] (by simp)
  have hndc : ((csv_to_jsonl rows).map Prod.fst).Nodup :=
    ((hperm.map Prod.fst).nodup_iff).2 hnd
  refine ⟨?_, ?_, ?_⟩
  · have hsort : (csv_to_jsonl rows).Pairwise byKey :=
      List.sorted_insertionSort byKey (buildGroups rows)
    have hne : (csv_to_jsonl rows).Pairwise (fun a b => a.1 ≠ b.1) :=
      List.pairwise_map.1 hndc
    exact (hsort.and hne).imp (fun h => lt_of_le_of_ne h.1 h.2)
  · intro k
    rw [(hperm.map Prod.fst).mem_iff, ← groupLookup_isSome_iff, buildGroups,
      groupLookup_foldl_isSome]
    simp [groupLookup, List.any_eq_true, List.mem_map]
  · intro e he
    have hmem : e ∈ buildGroups rows := hperm.mem_iff.1 he
    have hlook : groupLookup e.1 (buildGroups rows) = some e.2 :=
      groupLookup_of_mem_nodup (buildGroups rows) hnd e hmem
    have := groupLookup_foldl_getD e.1 rows []
    rw [buildGroups] at hlook
    rw [hlook] at this
    simpa [groupLookup] using this

end CommonName
